import Mathlib

/-!
Shallow embedding of the rendering core of `mandelbrot-rs` (`src/main.rs`).

Rust `f64` arithmetic is modelled by real arithmetic (`ℝ`); the saturating
numeric casts `as u8` / `as u32` and the truncating `f64::fract` are modelled
explicitly below.  Iteration counters and pixel words are modelled by `ℕ`
(the values involved stay far below `2^32`, so no wrapping can occur).
-/

noncomputable section

open Real

/-- Rust saturating cast `f64 as u8`: truncate toward zero, clamp to `[0, 255]`. -/
def f64toU8 (x : ℝ) : ℕ :=
  min (Int.toNat ⌊x⌋) 255

/-- Rust saturating cast `f64 as u32`: truncate toward zero, clamp to `[0, 2^32-1]`. -/
def f64toU32 (x : ℝ) : ℕ :=
  min (Int.toNat ⌊x⌋) 4294967295

/-- Rust `f64::trunc`: round toward zero. -/
def rustTrunc (x : ℝ) : ℝ :=
  if 0 ≤ x then (⌊x⌋ : ℤ) else (⌈x⌉ : ℤ)

/-- Rust `f64::fract`: `x - x.trunc()` (negative for negative `x`, unlike `Int.fract`). -/
def rustFract (x : ℝ) : ℝ :=
  x - rustTrunc x

/-- The `while` loop of `mandelbrot_iterations` (src/main.rs lines 600-609).
Fuel counts the remaining allowed iterations (`max_iter - iter`); the result is
the final `(zr, zi)` together with the number of loop iterations executed. -/
def mandelLoop (c_real c_imag escape_radius_sq : ℝ) : ℕ → ℝ → ℝ → ℝ × ℝ × ℕ
  | 0, zr, zi => (zr, zi, 0)
  | fuel + 1, zr, zi =>
    if zr * zr + zi * zi ≤ escape_radius_sq then
      let next := mandelLoop c_real c_imag escape_radius_sq fuel
        (zr * zr - zi * zi + c_real) (2 * zr * zi + c_imag)
      (next.1, next.2.1, next.2.2 + 1)
    else
      (zr, zi, 0)

/-- `mandelbrot_iterations` (src/main.rs lines 599-618): iterate `z ← z² + c`
from `z = 0`; if the loop reaches `max_iter`, return `max_iter`, otherwise the
smooth-coloring value `iter + 1 - ln(ln|z| / ln 2) / ln 2`. -/
def mandelbrot_iterations (c_real c_imag : ℝ) (max_iter : ℕ) (escape_radius_sq : ℝ) : ℝ :=
  let res := mandelLoop c_real c_imag escape_radius_sq max_iter 0 0
  if max_iter ≤ res.2.2 then
    (max_iter : ℝ)
  else
    let mag := Real.sqrt (res.1 * res.1 + res.2.1 * res.2.1)
    (res.2.2 : ℝ) + 1 - Real.log (Real.log mag / Real.log 2) / Real.log 2

/-- The `while` loop of `julia_iterations` (src/main.rs lines 632-637);
identical body to `mandelLoop`, kept separate to mirror the source. -/
def juliaLoop (c_real c_imag escape_radius_sq : ℝ) : ℕ → ℝ → ℝ → ℝ × ℝ × ℕ
  | 0, zr, zi => (zr, zi, 0)
  | fuel + 1, zr, zi =>
    if zr * zr + zi * zi ≤ escape_radius_sq then
      let next := juliaLoop c_real c_imag escape_radius_sq fuel
        (zr * zr - zi * zi + c_real) (2 * zr * zi + c_imag)
      (next.1, next.2.1, next.2.2 + 1)
    else
      (zr, zi, 0)

/-- `julia_iterations` (src/main.rs lines 620-645): iterate `z ← z² + c` from
`z = (z_real, z_imag)` with an independent constant `c`. -/
def julia_iterations (z_real z_imag c_real c_imag : ℝ) (max_iter : ℕ)
    (escape_radius_sq : ℝ) : ℝ :=
  let res := juliaLoop c_real c_imag escape_radius_sq max_iter z_real z_imag
  if max_iter ≤ res.2.2 then
    (max_iter : ℝ)
  else
    let mag := Real.sqrt (res.1 * res.1 + res.2.1 * res.2.1)
    (res.2.2 : ℝ) + 1 - Real.log (Real.log mag / Real.log 2) / Real.log 2

/-- `colorize_pixel` (src/main.rs lines 584-597): black when `iterations ≥ max_iter`,
otherwise a cubic-blend palette of the fractional part `t`, packed as `0xRRGGBB`. -/
def colorize_pixel (iterations : ℝ) (max_iter : ℕ) (color_scale color_offset : ℝ) : ℕ :=
  if (max_iter : ℝ) ≤ iterations then
    0
  else
    let t := rustFract (iterations / (max_iter : ℝ) * color_scale + color_offset)
    let r := f64toU8 (9 * (1 - t) * t * t * t * 255)
    let g := f64toU8 (15 * (1 - t) * (1 - t) * t * t * 255)
    let b := f64toU8 (8.5 * (1 - t) * (1 - t) * (1 - t) * t * 255)
    r <<< 16 ||| g <<< 8 ||| b

/-- The zoom-adaptive iteration cap computed at the top of `render_fractal`
(src/main.rs lines 495-498): `zoom_factor = max(zoom/200, 1)`,
`scaled = (max_iter * max(log10 zoom_factor, 1)) as u32`, capped at 5000. -/
def effectiveIterations (max_iter : ℕ) (zoom : ℝ) : ℕ :=
  let zoom_factor := max (zoom / 200) 1
  let scaled_iterations := f64toU32 ((max_iter : ℝ) * max (Real.logb 10 zoom_factor) 1)
  min scaled_iterations 5000

/-- The view parameters read by `render_fractal` (struct `MandelbrotParams`,
src/main.rs lines 7-19). -/
structure MandelbrotParams where
  center_x : ℝ
  center_y : ℝ
  zoom : ℝ
  max_iter : ℕ
  escape_radius : ℝ
  color_offset : ℝ
  color_scale : ℝ
  julia_mode : Bool
  julia_c_real : ℝ
  julia_c_imag : ℝ

/-- The per-pixel work of `render_fractal`'s parallel closure
(src/main.rs lines 502-529): decode `(x, y)` from the buffer index, map to the
complex plane, evaluate the fractal at the effective cap, and colorize. -/
def renderPixel (p : MandelbrotParams) (w h : ℕ) (i : ℕ) : ℕ :=
  let escape_radius_sq := p.escape_radius * p.escape_radius
  let eff := effectiveIterations p.max_iter p.zoom
  let x := i % w
  let y := i / w
  let re := p.center_x + ((x : ℝ) - (w : ℝ) / 2) / p.zoom
  let im := p.center_y + ((y : ℝ) - (h : ℝ) / 2) / p.zoom
  let iterations :=
    if p.julia_mode then
      julia_iterations re im p.julia_c_real p.julia_c_imag eff escape_radius_sq
    else
      mandelbrot_iterations re im eff escape_radius_sq
  colorize_pixel iterations eff p.color_scale p.color_offset

/-- `render_fractal` (src/main.rs lines 490-531) as the buffer it produces:
pixel `i` of the `w*h` row-major buffer holds `renderPixel i`. -/
def render_fractal (p : MandelbrotParams) (w h : ℕ) : List ℕ :=
  (List.range (w * h)).map (renderPixel p w h)

/-- The multiset of index-addressed writes issued by the `par_iter_mut` loop of
`render_fractal`: pixel `i` is assigned `renderPixel i`. -/
def renderWrites (p : MandelbrotParams) (w h : ℕ) : List (ℕ × ℕ) :=
  (List.range (w * h)).map fun i => (i, renderPixel p w h i)

/-- Apply a sequence of index-addressed writes to a buffer, in order; models one
parallel execution order of the `par_iter_mut` pixel writes. -/
def applyWrites (buf : List ℕ) (ws : List (ℕ × ℕ)) : List ℕ :=
  ws.foldl (fun b q => b.set q.1 q.2) buf

/-- Modelled from the spec: the reduced iteration cap of the Fast fidelity tier
("75% of effective, floor 80", §4.4); absent from this source variant. -/
def fastIterationCap (eff : ℕ) : ℕ :=
  max (3 * eff / 4) 80

/-- Modelled from the spec: the per-pixel work of the Fast fidelity tier (§4.4):
a pixel takes the color sampled at the origin of its 2×2 block, evaluated at
the reduced iteration cap; absent from this source variant. -/
def renderFastPixel (p : MandelbrotParams) (w h : ℕ) (i : ℕ) : ℕ :=
  let escape_radius_sq := p.escape_radius * p.escape_radius
  let eff := effectiveIterations p.max_iter p.zoom
  let cap := fastIterationCap eff
  let x := i % w
  let y := i / w
  let bx := x - x % 2
  let by' := y - y % 2
  let re := p.center_x + ((bx : ℝ) - (w : ℝ) / 2) / p.zoom
  let im := p.center_y + ((by' : ℝ) - (h : ℝ) / 2) / p.zoom
  let iterations :=
    if p.julia_mode then
      julia_iterations re im p.julia_c_real p.julia_c_imag cap escape_radius_sq
    else
      mandelbrot_iterations re im cap escape_radius_sq
  colorize_pixel iterations cap p.color_scale p.color_offset

/-- Modelled from the spec: the Fast fidelity render pass (§4.4), one coarse
block sample replicated over each 2×2 block; absent from this source variant. -/
def render_fractal_fast (p : MandelbrotParams) (w h : ℕ) : List ℕ :=
  (List.range (w * h)).map (renderFastPixel p w h)

/-- `JuliaKeyframe` (src/main.rs lines 21-26). -/
structure JuliaKeyframe where
  time : ℝ
  c_real : ℝ
  c_imag : ℝ

/-- The bracket-finding loop of `interpolate_julia_keyframes`
(src/main.rs lines 553-561): scan adjacent pairs in order, return the first
pair whose times bracket `progress`. -/
def scanPairs : List JuliaKeyframe → ℝ → Option (JuliaKeyframe × JuliaKeyframe)
  | a :: b :: rest, progress =>
    if a.time ≤ progress ∧ progress ≤ b.time then
      some (a, b)
    else
      scanPairs (b :: rest) progress
  | _, _ => none

/-- `interpolate_julia_keyframes` (src/main.rs lines 544-581): an empty list
falls back to the current constant `(dcr, dci)`; otherwise the bracketing pair
(defaulting to first/last) is interpolated with smoothstep easing. -/
def interpolate_julia_keyframes (kfs : List JuliaKeyframe) (dcr dci : ℝ)
    (progress : ℝ) : ℝ × ℝ :=
  match kfs with
  | [] => (dcr, dci)
  | k :: rest =>
    let pair := (scanPairs (k :: rest) progress).getD (k, rest.getLastD k)
    let prev := pair.1
    let next := pair.2
    let time_diff := next.time - prev.time
    let local_progress := if 0 < time_diff then (progress - prev.time) / time_diff else 0
    let smooth_t := local_progress * local_progress * (3 - 2 * local_progress)
    (prev.c_real + (next.c_real - prev.c_real) * smooth_t,
     prev.c_imag + (next.c_imag - prev.c_imag) * smooth_t)

/-! ## Helper lemmas about the escape loop -/

theorem juliaLoop_eq_mandelLoop (cr ci r2 : ℝ) (fuel : ℕ) :
    ∀ zr zi, juliaLoop cr ci r2 fuel zr zi = mandelLoop cr ci r2 fuel zr zi := by
  induction fuel with
  | zero => intro zr zi; rfl
  | succ n ih => intro zr zi; simp only [juliaLoop, mandelLoop, ih]

theorem mandelLoop_count_le (cr ci r2 : ℝ) (fuel : ℕ) :
    ∀ zr zi, (mandelLoop cr ci r2 fuel zr zi).2.2 ≤ fuel := by
  induction fuel with
  | zero => intro zr zi; simp [mandelLoop]
  | succ n ih =>
    intro zr zi
    simp only [mandelLoop]
    split
    · simpa using ih _ _
    · simp

theorem mandelLoop_escaped (cr ci r2 : ℝ) (fuel : ℕ) :
    ∀ zr zi, (mandelLoop cr ci r2 fuel zr zi).2.2 < fuel →
      r2 < (mandelLoop cr ci r2 fuel zr zi).1 * (mandelLoop cr ci r2 fuel zr zi).1 +
        (mandelLoop cr ci r2 fuel zr zi).2.1 * (mandelLoop cr ci r2 fuel zr zi).2.1 := by
  induction fuel with
  | zero => intro zr zi h; simp [mandelLoop] at h
  | succ n ih =>
    intro zr zi h
    simp only [mandelLoop] at h ⊢
    split
    · rename_i hcond
      simp only [if_pos hcond] at h
      exact ih _ _ (by omega)
    · rename_i hcond
      exact lt_of_not_le hcond

/-- If the loop exits before exhausting its fuel with `4 ≤ escape_radius_sq`, the
smooth-coloring correction is nonnegative, hence the returned value is at most
one more than the iteration count. -/
theorem smooth_correction_nonneg {s : ℝ} (hs : 4 < s) :
    0 ≤ Real.log (Real.log (Real.sqrt s) / Real.log 2) / Real.log 2 := by
  have h2 : (2 : ℝ) = Real.sqrt 4 := by
    rw [show (4 : ℝ) = 2 ^ 2 by norm_num, Real.sqrt_sq (by norm_num)]
  have hmag : (2 : ℝ) ≤ Real.sqrt s := by
    rw [h2]; exact Real.sqrt_le_sqrt (by linarith)
  have hlog2 : (0 : ℝ) < Real.log 2 := Real.log_pos (by norm_num)
  have hlogmag : Real.log 2 ≤ Real.log (Real.sqrt s) :=
    (Real.log_le_log_iff (by norm_num) (by linarith)).mpr hmag
  have hratio : (1 : ℝ) ≤ Real.log (Real.sqrt s) / Real.log 2 :=
    (le_div_iff₀ hlog2).mpr (by linarith)
  exact div_nonneg (Real.log_nonneg hratio) hlog2.le

theorem mandelLoop_succ_of_gt (cr ci r2 : ℝ) (fuel : ℕ) (zr zi : ℝ)
    (h : ¬ zr * zr + zi * zi ≤ r2) :
    mandelLoop cr ci r2 (fuel + 1) zr zi = (zr, zi, 0) := by
  simp [mandelLoop, h]

theorem rustFract_add_one_of_nonneg (x : ℝ) (hx : 0 ≤ x) :
    rustFract (x + 1) = rustFract x := by
  unfold rustFract rustTrunc
  rw [if_pos hx, if_pos (by linarith : (0 : ℝ) ≤ x + 1), Int.floor_add_one]
  push_cast
  ring

theorem rustFract_half : rustFract ((1 : ℝ)/2) = 1/2 := by
  unfold rustFract rustTrunc
  rw [if_pos (by norm_num : (0:ℝ) ≤ 1/2)]
  norm_num

theorem rustFract_neg_half : rustFract (-(1 : ℝ)/2) = -(1/2) := by
  unfold rustFract rustTrunc
  rw [if_neg (by norm_num : ¬ (0:ℝ) ≤ -1/2)]
  norm_num

theorem chain_lt_getLastD (l : List JuliaKeyframe) :
    ∀ b : JuliaKeyframe, List.Chain' (fun p q => p.time < q.time) (b :: l) →
      l ≠ [] → b.time < (l.getLastD b).time := by
  induction l with
  | nil => intro b _ h; exact absurd rfl h
  | cons c t ih =>
    intro b hchain _
    have hbc : b.time < c.time := (List.chain'_cons.mp hchain).1
    have htail : List.Chain' (fun p q => p.time < q.time) (c :: t) :=
      (List.chain'_cons.mp hchain).2
    rw [List.getLastD_cons]
    cases t with
    | nil => simpa using hbc
    | cons d t2 =>
      exact lt_trans hbc (ih c htail (by simp))

/-- With strictly increasing times whose last value is 1, the bracket scan of
`interpolate_julia_keyframes` at progress 1 selects the final pair. -/
theorem scanPairs_at_one (l : List JuliaKeyframe) :
    ∀ a : JuliaKeyframe, List.Chain' (fun p q => p.time < q.time) (a :: l) →
      l ≠ [] → (l.getLastD a).time = 1 →
      ∃ q, scanPairs (a :: l) 1 = some (q, l.getLastD a) ∧ q.time < 1 := by
  induction l with
  | nil => intro a _ h _; exact absurd rfl h
  | cons b t ih =>
    intro a hchain _ hlast
    have hab : a.time < b.time := (List.chain'_cons.mp hchain).1
    have htail : List.Chain' (fun p q => p.time < q.time) (b :: t) :=
      (List.chain'_cons.mp hchain).2
    rw [List.getLastD_cons] at hlast ⊢
    cases t with
    | nil =>
      simp only [List.getLastD] at hlast ⊢
      have ha1 : a.time ≤ 1 := by rw [hlast] at hab; exact hab.le
      refine ⟨a, ?_, by rw [hlast] at hab; exact hab⟩
      rw [scanPairs, if_pos ⟨ha1, hlast.ge⟩]
    | cons c t2 =>
      have hbt : b.time < ((c :: t2).getLastD b).time :=
        chain_lt_getLastD (c :: t2) b htail (by simp)
      have hb1 : b.time < 1 := by rw [hlast] at hbt; exact hbt
      obtain ⟨q, hscan, hq⟩ := ih b htail (by simp) hlast
      refine ⟨q, ?_, hq⟩
      rw [scanPairs, if_neg (by rintro ⟨h1, h2⟩; linarith)]
      exact hscan

theorem applyWrites_length (ws : List (ℕ × ℕ)) :
    ∀ buf : List ℕ, (applyWrites buf ws).length = buf.length := by
  induction ws with
  | nil => intro buf; rfl
  | cons q t ih =>
    intro buf
    show (applyWrites (buf.set q.1 q.2) t).length = buf.length
    rw [ih, List.length_set]

theorem applyWrites_getElem?_untouched (ws : List (ℕ × ℕ)) (j : ℕ) :
    ∀ buf : List ℕ, (∀ v, (j, v) ∉ ws) → (applyWrites buf ws)[j]? = buf[j]? := by
  induction ws with
  | nil => intro buf _; rfl
  | cons q t ih =>
    intro buf hnot
    show (applyWrites (buf.set q.1 q.2) t)[j]? = buf[j]?
    have hne : q.1 ≠ j := by
      intro he
      exact hnot q.2 (by rw [← he]; exact List.mem_cons_self q t)
    rw [ih (buf.set q.1 q.2) (fun v hv => hnot v (List.mem_cons_of_mem q hv)),
      List.getElem?_set_ne hne]

theorem applyWrites_getElem?_of_mem (ws : List (ℕ × ℕ)) (j v : ℕ) :
    ∀ buf : List ℕ, j < buf.length → (j, v) ∈ ws →
      (∀ q ∈ ws, q.1 = j → q.2 = v) → (applyWrites buf ws)[j]? = some v := by
  induction ws with
  | nil => intro buf _ hmem _; exact absurd hmem (List.not_mem_nil _)
  | cons q t ih =>
    intro buf hj hmem huniq
    show (applyWrites (buf.set q.1 q.2) t)[j]? = some v
    by_cases hmem' : (j, v) ∈ t
    · exact ih (buf.set q.1 q.2) (by rw [List.length_set]; exact hj) hmem'
        (fun r hr => huniq r (List.mem_cons_of_mem q hr))
    · have hq : q = (j, v) := by
        rcases List.mem_cons.mp hmem with h | h
        · exact h.symm
        · exact absurd h hmem'
      subst hq
      have hnone : ∀ v2, (j, v2) ∉ t := by
        intro v2 hv2
        have := huniq (j, v2) (List.mem_cons_of_mem _ hv2) rfl
        simp only at this
        subst this
        exact hmem' hv2
      rw [applyWrites_getElem?_untouched t j _ hnone]
      simp [List.getElem?_set_self, hj]

/-- Applying the write multiset of `render_fractal` in any order to any buffer
of the right size yields the canonical rendered buffer. -/
theorem applyWrites_perm_renderWrites (p : MandelbrotParams) (w h : ℕ)
    (b : List ℕ) (l : List (ℕ × ℕ))
    (hb : b.length = w * h) (hl : l.Perm (renderWrites p w h)) :
    applyWrites b l = render_fractal p w h := by
  apply List.ext_getElem?
  intro i
  by_cases hi : i < w * h
  · have hmem : (i, renderPixel p w h i) ∈ l :=
      hl.mem_iff.mpr (List.mem_map.mpr ⟨i, List.mem_range.mpr hi, rfl⟩)
    have huniq : ∀ q ∈ l, q.1 = i → q.2 = renderPixel p w h i := by
      intro q hq hqi
      obtain ⟨k, _, rfl⟩ := List.mem_map.mp (hl.subset hq)
      simp only at hqi
      rw [hqi]
    rw [applyWrites_getElem?_of_mem l i _ b (by omega) hmem huniq]
    simp [render_fractal, List.getElem?_map, List.getElem?_range, hi]
  · rw [List.getElem?_eq_none (by rw [applyWrites_length]; omega),
      List.getElem?_eq_none (by simp [render_fractal]; omega)]

/-! ## Claim theorems -/

/-- Claim C1 (amended): for escape radius at least 2 (squared radius at least 4),
both escape-time evaluators return a value at most `max_iter`; the lower bound 0
of the original claim fails (see the counterexample). -/
theorem c1_value_le_max_iter (cr ci zr zi r2 : ℝ) (m : ℕ) (_hm : 0 < m) (hr : 4 ≤ r2) :
    mandelbrot_iterations cr ci m r2 ≤ m ∧ julia_iterations zr zi cr ci m r2 ≤ m := by
  constructor
  · unfold mandelbrot_iterations
    by_cases h : m ≤ (mandelLoop cr ci r2 m 0 0).2.2
    · simp [h]
    · simp only [h, if_neg, if_false]
      have hlt : (mandelLoop cr ci r2 m 0 0).2.2 < m := lt_of_not_le h
      have hesc := mandelLoop_escaped cr ci r2 m 0 0 hlt
      have hcorr := smooth_correction_nonneg (lt_of_le_of_lt hr hesc)
      have hcount : ((mandelLoop cr ci r2 m 0 0).2.2 : ℝ) + 1 ≤ m := by
        exact_mod_cast Nat.succ_le_of_lt hlt
      linarith
  · unfold julia_iterations
    rw [juliaLoop_eq_mandelLoop]
    by_cases h : m ≤ (mandelLoop cr ci r2 m zr zi).2.2
    · simp [h]
    · simp only [h, if_neg, if_false]
      have hlt : (mandelLoop cr ci r2 m zr zi).2.2 < m := lt_of_not_le h
      have hesc := mandelLoop_escaped cr ci r2 m zr zi hlt
      have hcorr := smooth_correction_nonneg (lt_of_le_of_lt hr hesc)
      have hcount : ((mandelLoop cr ci r2 m zr zi).2.2 : ℝ) + 1 ≤ m := by
        exact_mod_cast Nat.succ_le_of_lt hlt
      linarith

/-- Witness for C1 (amended) at `c = (0,0)`, `z = (0,0)`, `max_iter = 1`, radius 2. -/
theorem c1_value_le_max_iter_witness :
    0 < 1 ∧ (4 : ℝ) ≤ 4 ∧
      (mandelbrot_iterations 0 0 1 4 ≤ 1 ∧ julia_iterations 0 0 0 0 1 4 ≤ 1) :=
  ⟨by norm_num, by norm_num, by
    exact_mod_cast c1_value_le_max_iter 0 0 0 0 4 1 (by norm_num) (by norm_num)⟩

/-- Counterexample to claim C1 as stated: at the point `(256, 0)` with
`max_iter = 2` and escape radius 2 (squared radius 4), the Mandelbrot evaluator
returns `1 + 1 - ln(ln 256 / ln 2) / ln 2 = 2 - 3 = -1`, which lies outside
`[0, max_iter]`. -/
theorem c1_counterexample : mandelbrot_iterations 256 0 2 4 < 0 := by
  have hlog2 : Real.log 2 ≠ 0 := ne_of_gt (Real.log_pos (by norm_num))
  have hloop : mandelLoop 256 0 4 2 0 0 = (256, 0, 1) := by norm_num [mandelLoop]
  have hsqrt : Real.sqrt 65536 = 256 := by
    rw [show (65536 : ℝ) = 256 ^ 2 by norm_num, Real.sqrt_sq (by norm_num)]
  have hl256 : Real.log 256 = 8 * Real.log 2 := by
    rw [show (256 : ℝ) = 2 ^ 8 by norm_num, Real.log_pow]
    norm_num
  have hl8 : Real.log 8 = 3 * Real.log 2 := by
    rw [show (8 : ℝ) = 2 ^ 3 by norm_num, Real.log_pow]
    norm_num
  unfold mandelbrot_iterations
  rw [hloop]
  norm_num
  rw [hsqrt, hl256, mul_div_assoc, div_self hlog2, mul_one, hl8, mul_div_assoc,
    div_self hlog2]
  norm_num

/-- Claim C5: for every point `c` with `|c| > 2`, escape radius 2 (squared
radius 4) and `max_iter ≥ 2`, the Mandelbrot evaluator returns a value
strictly less than 2. -/
theorem c5_outside_radius_lt_two (cr ci : ℝ) (hc : 2 < Real.sqrt (cr * cr + ci * ci))
    (m : ℕ) (hm : 2 ≤ m) : mandelbrot_iterations cr ci m 4 < 2 := by
  have h0 : (0 : ℝ) ≤ cr * cr + ci * ci := add_nonneg (mul_self_nonneg cr) (mul_self_nonneg ci)
  have hs : 4 < cr * cr + ci * ci := by
    nlinarith [Real.sq_sqrt h0, Real.sqrt_nonneg (cr * cr + ci * ci)]
  obtain ⟨k, rfl⟩ : ∃ k, m = k + 2 := ⟨m - 2, by omega⟩
  have harg1 : (0 : ℝ) * 0 - 0 * 0 + cr = cr := by ring
  have harg2 : (2 : ℝ) * 0 * 0 + ci = ci := by ring
  have hloop : mandelLoop cr ci 4 (k + 2) 0 0 = (cr, ci, 1) := by
    have h1 : mandelLoop cr ci 4 (k + 1 + 1) 0 0 =
        let next := mandelLoop cr ci 4 (k + 1) (0 * 0 - 0 * 0 + cr) (2 * 0 * 0 + ci)
        (next.1, next.2.1, next.2.2 + 1) := by
      rw [mandelLoop, if_pos (by norm_num : (0 : ℝ) * 0 + 0 * 0 ≤ 4)]
    rw [show k + 2 = k + 1 + 1 from rfl, h1]
    rw [harg1, harg2, mandelLoop_succ_of_gt cr ci 4 k cr ci (not_le.mpr hs)]
  unfold mandelbrot_iterations
  rw [hloop]
  rw [if_neg (by omega : ¬ k + 2 ≤ 1)]
  have hlog2pos : (0 : ℝ) < Real.log 2 := Real.log_pos (by norm_num)
  have hlm : Real.log 2 < Real.log (Real.sqrt (cr * cr + ci * ci)) :=
    Real.log_lt_log (by norm_num) hc
  have hratio : 1 < Real.log (Real.sqrt (cr * cr + ci * ci)) / Real.log 2 :=
    (one_lt_div hlog2pos).mpr hlm
  have hcorr : 0 < Real.log (Real.log (Real.sqrt (cr * cr + ci * ci)) / Real.log 2) /
      Real.log 2 := div_pos (Real.log_pos hratio) hlog2pos
  push_cast
  linarith

/-- Witness for C5 at `c = (3, 0)`, `max_iter = 2`. -/
theorem c5_outside_radius_lt_two_witness :
    2 < Real.sqrt (3 * 3 + 0 * 0) ∧ 2 ≤ 2 ∧ mandelbrot_iterations 3 0 2 4 < 2 := by
  have h : (2 : ℝ) < Real.sqrt (3 * 3 + 0 * 0) := by
    rw [show (3 * 3 + 0 * 0 : ℝ) = 9 by norm_num]
    rw [show (9 : ℝ) = 3 ^ 2 by norm_num, Real.sqrt_sq (by norm_num)]
    norm_num
  exact ⟨h, le_refl 2, c5_outside_radius_lt_two 3 0 h 2 (le_refl 2)⟩

/-- Claim C6 (amended): for keyframe lists of length at least 2 with *strictly*
increasing times, first time 0 and last time 1, interpolation at progress 0
yields the first keyframe's constant and at progress 1 the last keyframe's
constant.  (With merely non-strict sorting a duplicated final time breaks the
progress-1 case; see the counterexample.) -/
theorem c6_endpoints (a b : JuliaKeyframe) (rest : List JuliaKeyframe) (dcr dci : ℝ)
    (hchain : List.Chain' (fun p q => p.time < q.time) (a :: b :: rest))
    (ha : a.time = 0) (hlast : ((b :: rest).getLastD a).time = 1) :
    interpolate_julia_keyframes (a :: b :: rest) dcr dci 0 = (a.c_real, a.c_imag) ∧
      interpolate_julia_keyframes (a :: b :: rest) dcr dci 1 =
        (((b :: rest).getLastD a).c_real, ((b :: rest).getLastD a).c_imag) := by
  have hab : a.time < b.time := (List.chain'_cons.mp hchain).1
  constructor
  · have hscan : scanPairs (a :: b :: rest) 0 = some (a, b) := by
      rw [scanPairs, if_pos ⟨ha.le, by linarith⟩]
    simp only [interpolate_julia_keyframes, hscan, Option.getD_some]
    rw [if_pos (by linarith : (0:ℝ) < b.time - a.time)]
    rw [ha]
    norm_num
  · obtain ⟨q, hscan, hq⟩ := scanPairs_at_one (b :: rest) a hchain (by simp) hlast
    rw [List.getLastD_cons] at hscan hlast ⊢
    simp only [interpolate_julia_keyframes, hscan, Option.getD_some]
    rw [hlast]
    rw [if_pos (by linarith : (0:ℝ) < 1 - q.time)]
    rw [div_self (ne_of_gt (by linarith : (0:ℝ) < 1 - q.time))]
    simp only [Prod.mk.injEq]
    constructor <;> ring

/-- Witness for C6 (amended) on the two-keyframe list `[(0,5,6), (1,7,8)]`. -/
theorem c6_endpoints_witness :
    interpolate_julia_keyframes [(⟨0, 5, 6⟩ : JuliaKeyframe), ⟨1, 7, 8⟩] 0 0 0 = (5, 6) ∧
      interpolate_julia_keyframes [(⟨0, 5, 6⟩ : JuliaKeyframe), ⟨1, 7, 8⟩] 0 0 1 = (7, 8) := by
  have h := c6_endpoints ⟨0, 5, 6⟩ ⟨1, 7, 8⟩ [] 0 0
    (by norm_num [List.chain'_cons]) rfl (by simp [List.getLastD])
  simpa using h

/-- Counterexample to claim C6 as stated: the list `[(0,0,0), (1,1,1), (1,2,2)]`
is sorted by time, has at least two entries, first time 0 and last time 1, yet
interpolation at progress 1 returns the constant `(1,1)` of the *second*
keyframe, not the last keyframe's `(2,2)`. -/
theorem c6_counterexample :
    List.Chain' (fun p q => p.time ≤ q.time)
        [(⟨0, 0, 0⟩ : JuliaKeyframe), ⟨1, 1, 1⟩, ⟨1, 2, 2⟩] ∧
      interpolate_julia_keyframes [(⟨0, 0, 0⟩ : JuliaKeyframe), ⟨1, 1, 1⟩, ⟨1, 2, 2⟩] 0 0 1 =
        (1, 1) ∧
      ((1 : ℝ), (1 : ℝ)) ≠ ((2 : ℝ), (2 : ℝ)) := by
  refine ⟨by simp [List.chain'_cons], ?_, by norm_num [Prod.ext_iff]⟩
  have hscan : scanPairs [(⟨0, 0, 0⟩ : JuliaKeyframe), ⟨1, 1, 1⟩, ⟨1, 2, 2⟩] 1 =
      some (⟨0, 0, 0⟩, ⟨1, 1, 1⟩) := by
    rw [scanPairs, if_pos (by norm_num)]
  simp only [interpolate_julia_keyframes, hscan, Option.getD_some]
  norm_num

/-- Claim C7: the color mapper returns black (`0x000000`) whenever the continuous
iteration value reaches `max_iter`, for every scale and offset. -/
theorem c7_in_set_is_black (v : ℝ) (m : ℕ) (s o : ℝ) (h : (m : ℝ) ≤ v) :
    colorize_pixel v m s o = 0 := by
  simp [colorize_pixel, h]

/-- Witness for C7 at `v = 1`, `max_iter = 1`. -/
theorem c7_in_set_is_black_witness : ((1 : ℕ) : ℝ) ≤ 1 ∧ colorize_pixel 1 1 1 0 = 0 :=
  ⟨by norm_num, c7_in_set_is_black 1 1 1 0 (by norm_num)⟩

/-- Claim C2: the Fast tier (modelled from the spec, used while a gesture is in
flight) evaluates one sample per 2×2 block — every pixel's color equals the color
at its block origin — with the reduced cap `max(3·effective/4, 80)` at the block
origin's coordinates, while the HighQuality tier (`render_fractal` from the
source) performs one evaluation per pixel at the full effective cap. -/
theorem c2_fidelity_tiers (p : MandelbrotParams) (w h x y : ℕ) (hx : x < w) (hy : y < h) :
    (render_fractal_fast p w h)[y * w + x]? =
        (render_fractal_fast p w h)[(y - y % 2) * w + (x - x % 2)]? ∧
      renderFastPixel p w h (y * w + x) =
        colorize_pixel
          (if p.julia_mode then
            julia_iterations
              (p.center_x + (((x - x % 2 : ℕ) : ℝ) - (w : ℝ) / 2) / p.zoom)
              (p.center_y + (((y - y % 2 : ℕ) : ℝ) - (h : ℝ) / 2) / p.zoom)
              p.julia_c_real p.julia_c_imag
              (max (3 * effectiveIterations p.max_iter p.zoom / 4) 80)
              (p.escape_radius * p.escape_radius)
          else
            mandelbrot_iterations
              (p.center_x + (((x - x % 2 : ℕ) : ℝ) - (w : ℝ) / 2) / p.zoom)
              (p.center_y + (((y - y % 2 : ℕ) : ℝ) - (h : ℝ) / 2) / p.zoom)
              (max (3 * effectiveIterations p.max_iter p.zoom / 4) 80)
              (p.escape_radius * p.escape_radius))
          (max (3 * effectiveIterations p.max_iter p.zoom / 4) 80)
          p.color_scale p.color_offset ∧
      (render_fractal p w h)[y * w + x]? =
        some (colorize_pixel
          (if p.julia_mode then
            julia_iterations (p.center_x + ((x : ℝ) - (w : ℝ) / 2) / p.zoom)
              (p.center_y + ((y : ℝ) - (h : ℝ) / 2) / p.zoom)
              p.julia_c_real p.julia_c_imag
              (effectiveIterations p.max_iter p.zoom) (p.escape_radius * p.escape_radius)
          else
            mandelbrot_iterations (p.center_x + ((x : ℝ) - (w : ℝ) / 2) / p.zoom)
              (p.center_y + ((y : ℝ) - (h : ℝ) / 2) / p.zoom)
              (effectiveIterations p.max_iter p.zoom) (p.escape_radius * p.escape_radius))
          (effectiveIterations p.max_iter p.zoom) p.color_scale p.color_offset) := by
  have hw : 0 < w := Nat.lt_of_le_of_lt (Nat.zero_le x) hx
  have hidx : (y * w + x) % w = x := by
    rw [Nat.mul_comm y w, Nat.mul_add_mod]; exact Nat.mod_eq_of_lt hx
  have hidy : (y * w + x) / w = y := by
    rw [Nat.add_comm, Nat.add_mul_div_right _ _ hw, Nat.div_eq_of_lt hx, Nat.zero_add]
  have hx2 : x - x % 2 < w := lt_of_le_of_lt (Nat.sub_le _ _) hx
  have hy2 : y - y % 2 < h := lt_of_le_of_lt (Nat.sub_le _ _) hy
  have hidx2 : ((y - y % 2) * w + (x - x % 2)) % w = x - x % 2 := by
    rw [Nat.mul_comm _ w, Nat.mul_add_mod]; exact Nat.mod_eq_of_lt hx2
  have hidy2 : ((y - y % 2) * w + (x - x % 2)) / w = y - y % 2 := by
    rw [Nat.add_comm, Nat.add_mul_div_right _ _ hw, Nat.div_eq_of_lt hx2, Nat.zero_add]
  have hxm : x - x % 2 - (x - x % 2) % 2 = x - x % 2 := by omega
  have hym : y - y % 2 - (y - y % 2) % 2 = y - y % 2 := by omega
  have hi1 : y * w + x < w * h := by
    calc y * w + x < y * w + w := by omega
    _ = (y + 1) * w := by ring
    _ ≤ h * w := Nat.mul_le_mul_right w hy
    _ = w * h := Nat.mul_comm h w
  have hi2 : (y - y % 2) * w + (x - x % 2) < w * h := by
    calc (y - y % 2) * w + (x - x % 2) < (y - y % 2) * w + w := by omega
    _ = (y - y % 2 + 1) * w := by ring
    _ ≤ h * w := Nat.mul_le_mul_right w hy2
    _ = w * h := Nat.mul_comm h w
  refine ⟨?_, ?_, ?_⟩
  · simp only [render_fractal_fast, List.getElem?_map, List.getElem?_range, hi1, hi2,
      Option.map_some']
    simp only [renderFastPixel, hidx, hidy, hidx2, hidy2, hxm, hym]
  · simp only [renderFastPixel, fastIterationCap, hidx, hidy]
  · simp only [render_fractal, List.getElem?_map, List.getElem?_range, hi1,
      Option.map_some']
    simp only [renderPixel, hidx, hidy]

/-- Witness for C2 at pixel `(1, 1)` of a 2×2 render with default parameters. -/
theorem c2_fidelity_tiers_witness :
    1 < 2 ∧
      ((render_fractal_fast ⟨-0.75, 0, 200, 500, 2, 0, 1, false, -0.7, 0.27015⟩ 2 2)[1 * 2 + 1]? =
        (render_fractal_fast ⟨-0.75, 0, 200, 500, 2, 0, 1, false, -0.7, 0.27015⟩ 2 2)[
          (1 - 1 % 2) * 2 + (1 - 1 % 2)]?) :=
  ⟨by norm_num,
    (c2_fidelity_tiers ⟨-0.75, 0, 200, 500, 2, 0, 1, false, -0.7, 0.27015⟩ 2 2 1 1
      (by norm_num) (by norm_num)).1⟩

/-- Claim C4: for every base cap in `[1, 5000]` and every positive zoom, the
adaptive iteration cap of `render_fractal` is at least `base` when zoom reaches
the 200 reference, at most 5000, and non-decreasing in zoom.  (In fact
`effective ≥ base` holds for every zoom, since `max(log10(...), 1) ≥ 1`.) -/
theorem c4_adaptive_controller (base : ℕ) (zoom zoom' : ℝ)
    (hb1 : 1 ≤ base) (hb2 : base ≤ 5000) (_hz : 0 < zoom) (hzz : zoom ≤ zoom') :
    (200 ≤ zoom → base ≤ effectiveIterations base zoom) ∧
      effectiveIterations base zoom ≤ 5000 ∧
      effectiveIterations base zoom ≤ effectiveIterations base zoom' := by
  refine ⟨fun _ => ?_, min_le_right _ _, ?_⟩
  · unfold effectiveIterations f64toU32
    have hx : (base : ℝ) ≤ (base : ℝ) * max (Real.logb 10 (max (zoom / 200) 1)) 1 :=
      le_mul_of_one_le_right (Nat.cast_nonneg _) (le_max_right _ _)
    have hfl : (base : ℤ) ≤ ⌊(base : ℝ) * max (Real.logb 10 (max (zoom / 200) 1)) 1⌋ :=
      Int.le_floor.mpr (by exact_mod_cast hx)
    have hnn : (0 : ℤ) ≤ ⌊(base : ℝ) * max (Real.logb 10 (max (zoom / 200) 1)) 1⌋ :=
      le_trans (by exact_mod_cast Nat.zero_le base) hfl
    have htn : base ≤ Int.toNat ⌊(base : ℝ) * max (Real.logb 10 (max (zoom / 200) 1)) 1⌋ :=
      (Int.le_toNat hnn).mpr hfl
    exact le_min (le_min htn (by omega)) hb2
  · unfold effectiveIterations f64toU32
    have h0 : (0 : ℝ) < max (zoom / 200) 1 := lt_of_lt_of_le one_pos (le_max_right _ _)
    have hdiv : zoom / 200 ≤ zoom' / 200 := by linarith
    have hmax : max (zoom / 200) 1 ≤ max (zoom' / 200) 1 := max_le_max hdiv (le_refl 1)
    have hlogb : Real.logb 10 (max (zoom / 200) 1) ≤ Real.logb 10 (max (zoom' / 200) 1) :=
      Real.logb_le_logb_of_le (by norm_num) h0 hmax
    have hmul : (base : ℝ) * max (Real.logb 10 (max (zoom / 200) 1)) 1 ≤
        (base : ℝ) * max (Real.logb 10 (max (zoom' / 200) 1)) 1 :=
      mul_le_mul_of_nonneg_left (max_le_max hlogb (le_refl 1)) (Nat.cast_nonneg _)
    exact min_le_min (min_le_min (Int.toNat_le_toNat (Int.floor_le_floor hmul)) (le_refl _))
      (le_refl _)

/-- Witness for C4 at `base = 1`, `zoom = 100`, `zoom' = 300`. -/
theorem c4_adaptive_controller_witness :
    1 ≤ 1 ∧ 1 ≤ 5000 ∧ (0 : ℝ) < 100 ∧ (100 : ℝ) ≤ 300 ∧
      ((200 ≤ (100 : ℝ) → 1 ≤ effectiveIterations 1 100) ∧
        effectiveIterations 1 100 ≤ 5000 ∧
        effectiveIterations 1 100 ≤ effectiveIterations 1 300) :=
  ⟨le_refl 1, by norm_num, by norm_num, by norm_num,
    c4_adaptive_controller 1 100 300 (le_refl 1) (by norm_num) (by norm_num) (by norm_num)⟩

/-- Claim C8 (amended): the color mapper is invariant under
`color_offset → color_offset + 1` provided the fractional-part argument is
nonnegative, which holds whenever `v`, `color_scale` and `color_offset` are all
nonnegative; for negative arguments Rust `fract` truncates toward zero and the
periodicity fails (see the counterexample). -/
theorem c8_offset_periodic (v : ℝ) (m : ℕ) (s o : ℝ)
    (hv : 0 ≤ v) (hvm : v < m) (hs : 0 ≤ s) (ho : 0 ≤ o) :
    colorize_pixel v m s (o + 1) = colorize_pixel v m s o := by
  have hq : 0 ≤ v / (m : ℝ) * s + o :=
    add_nonneg (mul_nonneg (div_nonneg hv (Nat.cast_nonneg m)) hs) ho
  have hne : ¬ (m : ℝ) ≤ v := not_le.mpr hvm
  simp only [colorize_pixel, if_neg hne]
  rw [show v / (m : ℝ) * s + (o + 1) = v / (m : ℝ) * s + o + 1 by ring,
    rustFract_add_one_of_nonneg _ hq]

/-- Witness for C8 (amended) at `v = 0`, `max_iter = 1`, scale 0, offset 0. -/
theorem c8_offset_periodic_witness :
    (0 : ℝ) ≤ 0 ∧ (0 : ℝ) < ((1 : ℕ) : ℝ) ∧
      colorize_pixel 0 1 0 (0 + 1) = colorize_pixel 0 1 0 0 :=
  ⟨le_refl 0, by norm_num,
    c8_offset_periodic 0 1 0 0 (le_refl 0) (by norm_num) (le_refl 0) (le_refl 0)⟩

/-- Counterexample to claim C8 as stated: at `v = 1`, `max_iter = 2`,
`color_scale = 1` and `color_offset = -1`, the fractional-part argument is
`-1/2`; Rust `fract` truncates toward zero, so the offset and offset+1 colors
differ (`0x00FF00` versus `0x8FEF87`). -/
theorem c8_counterexample :
    colorize_pixel 1 2 1 ((-1 : ℝ) + 1) ≠ colorize_pixel 1 2 1 (-1) := by
  have hne : ¬ ((2:ℕ) : ℝ) ≤ 1 := by norm_num
  have e1 : colorize_pixel 1 2 1 ((-1 : ℝ) + 1) = 143 <<< 16 ||| 239 <<< 8 ||| 135 := by
    simp only [colorize_pixel, if_neg hne]
    rw [show (1:ℝ) / ((2:ℕ):ℝ) * 1 + (-1 + 1) = 1/2 by push_cast; ring, rustFract_half]
    norm_num [f64toU8]
    decide
  have e2 : colorize_pixel 1 2 1 (-1 : ℝ) = 0 <<< 16 ||| 255 <<< 8 ||| 0 := by
    simp only [colorize_pixel, if_neg hne]
    rw [show (1:ℝ) / ((2:ℕ):ℝ) * 1 + -1 = -1/2 by push_cast; ring, rustFract_neg_half]
    norm_num [f64toU8]
    decide
  rw [e1, e2]
  decide

/-- Claim C9: rendering the same request twice is deterministic — applying the
pixel writes of `render_fractal` in any two execution orders, to any two
initial buffers of the right size, produces bit-identical buffers. -/
theorem c9_render_deterministic (p : MandelbrotParams) (w h : ℕ)
    (b1 b2 : List ℕ) (l1 l2 : List (ℕ × ℕ))
    (hb1 : b1.length = w * h) (hb2 : b2.length = w * h)
    (hl1 : l1.Perm (renderWrites p w h)) (hl2 : l2.Perm (renderWrites p w h)) :
    applyWrites b1 l1 = applyWrites b2 l2 := by
  rw [applyWrites_perm_renderWrites p w h b1 l1 hb1 hl1,
    applyWrites_perm_renderWrites p w h b2 l2 hb2 hl2]

/-- Witness for C9 on a 1×1 buffer with the default view parameters. -/
theorem c9_render_deterministic_witness :
    ([0] : List ℕ).length = 1 * 1 ∧
      applyWrites [0] (renderWrites ⟨-0.75, 0, 200, 500, 2, 0, 1, false, -0.7, 0.27015⟩ 1 1) =
        applyWrites [0] (renderWrites ⟨-0.75, 0, 200, 500, 2, 0, 1, false, -0.7, 0.27015⟩ 1 1) :=
  ⟨rfl, c9_render_deterministic ⟨-0.75, 0, 200, 500, 2, 0, 1, false, -0.7, 0.27015⟩ 1 1
    [0] [0] _ _ rfl rfl (List.Perm.refl _) (List.Perm.refl _)⟩

/-- Claim C10: the Mandelbrot evaluator is exactly the Julia evaluator started
from `z = 0` with the sampled point as the constant. -/
theorem c10_mandelbrot_eq_julia_from_zero (x y : ℝ) (m : ℕ) (r2 : ℝ) :
    mandelbrot_iterations x y m r2 = julia_iterations 0 0 x y m r2 := by
  simp only [mandelbrot_iterations, julia_iterations, juliaLoop_eq_mandelLoop]

end
